import Mathlib

/-!
# ltst: the dynamic command registry and the fetch/aggregation engine

A shallow embedding of `cmd/root.go`.

* Go's `interface{}` values coming out of the YAML configuration are the
  type `Value`; a `map[interface{}]interface{}` is an association list whose
  lookup returns `Value.null` for an absent key, as a Go map lookup returns the
  nil interface.
* A Go `error` is `Option String` (its message, `none` for `nil`).
* A run-time panic (failed single-value type assertion, nil pointer
  dereference) is the error side of `Except Panic`.
* The collaborators that live outside the file (the network fetch of goquery,
  the sub-command list kept by cobra, the configuration lookup of viper) are
  parameters of the functions that use them.
-/

namespace Ltst

/-! ## Data model -/

/-- A dynamically typed value, as the YAML decoder hands it over in an `interface{}`. -/
inductive Value where
  | null
  | str (s : String)
  | int (i : Int)
  | bool (b : Bool)
  | seq (xs : List Value)
  | dict (kvs : List (Value × Value))

/-- A raw configuration entry, `map[interface{}]interface{}`. -/
abbrev Entry := List (Value × Value)

/-- The comparison `v == nil` on an interface value. -/
def Value.isNil : Value → Bool
  | .null => true
  | _ => false

/-- Whether the interface value holds exactly the string `k`. -/
def Value.isString (k : String) : Value → Bool
  | .str s => s == k
  | _ => false

/-- Whether the interface value holds a string at all. -/
def Value.holdsString : Value → Bool
  | .str _ => true
  | _ => false

/-- The map lookup `entry[k]` for a string key `k`: the nil interface when the key is absent. -/
def Entry.get (entry : Entry) (k : String) : Value :=
  match entry.find? (fun p => p.1.isString k) with
  | some p => p.2
  | none => .null

/-- A run-time panic of the Go program. -/
inductive Panic where
  | typeAssertion
  | nilDereference
  deriving DecidableEq

/-- The type assertion `v.(string)`. -/
def Value.asString : Value → Except Panic String
  | .str s => .ok s
  | _ => .error .typeAssertion

/-- The type assertion `v.([]interface{})`. -/
def Value.asList : Value → Except Panic (List Value)
  | .seq xs => .ok xs
  | _ => .error .typeAssertion

/-- The type assertion `v.(map[interface{}]interface{})`. -/
def Value.asMap : Value → Except Panic Entry
  | .dict kvs => .ok kvs
  | _ => .error .typeAssertion

def URL_KEY : String := "url"
def QUERY_KEY : String := "query"
def NAME_KEY : String := "name"
def SHORT_DESC_KEY : String := "shortDescription"
def LONG_DESC_KEY : String := "longDescription"
def COMMAND_KEY : String := "command"

def REQUIRED_CONFIG : List String := [URL_KEY, QUERY_KEY, NAME_KEY, COMMAND_KEY]

/-- The fields of a `cobra.Command` that the program sets. -/
structure Command where
  Use : String
  Short : String
  Long : String

/-- The method `Command.Name` of cobra: the text of `Use` before its first space. -/
def Command.Name (c : Command) : String :=
  String.mk (c.Use.data.takeWhile (fun ch => ch != ' '))

/-- A message written to the error stream. -/
inductive Diagnostic where
  | configRead (err : String)
  | configEntry (entry : Entry) (err : String)

/-- The mutable globals: `cmdMap`, the sub-commands added to `RootCmd`, and the error stream. -/
structure State where
  cmdMap : List (String × Entry)
  commands : List Command
  stderr : List Diagnostic

/-- The state before `init` runs: `cmdMap` is a fresh map, `RootCmd` has no sub-command. -/
def State.initial : State := ⟨[], [], []⟩

/-- The map assignment `m[k] = v`: the binding of `k`, if any, is replaced. -/
def mapSet (m : List (String × Entry)) (k : String) (v : Entry) : List (String × Entry) :=
  (k, v) :: m.filter (fun p => p.1 != k)

/-- The map lookup with presence, `v, ok := m[k]`. -/
def mapGet (m : List (String × Entry)) (k : String) : Option Entry :=
  match m with
  | [] => none
  | p :: rest => if p.1 == k then some p.2 else mapGet rest k

/-! ## Validation and registration -/

/-- The loop of `validateEntry` over the remaining required keys. -/
def validateEntry.loop (entry : Entry) : List String → Option String
  | [] => none
  | cfg :: rest =>
    if (entry.get cfg).isNil then
      some (cfg ++ " is a required config value")
    else
      validateEntry.loop entry rest

/-- The function `validateEntry`: `none` is the nil error. -/
def validateEntry (entry : Entry) : Option String :=
  validateEntry.loop entry REQUIRED_CONFIG

/-- The function `getOrDefault`. -/
def getOrDefault (entry : Entry) (key : String) (defaultVal : Value) : Value :=
  let possibleVal := entry.get key
  if possibleVal.isNil then defaultVal else possibleVal

/-- The function `createCommandsFromEntries`, threading the globals it updates. -/
def createCommandsFromEntries : List Entry → State → Except Panic State
  | [], st => .ok st
  | entry :: rest, st =>
    match validateEntry entry with
    | some err =>
      createCommandsFromEntries rest
        ⟨st.cmdMap, st.commands, st.stderr ++ [Diagnostic.configEntry entry err]⟩
    | none =>
      match (entry.get COMMAND_KEY).asString with
      | .error p => .error p
      | .ok command =>
        let cmdMap := mapSet st.cmdMap command entry
        match (getOrDefault entry SHORT_DESC_KEY (entry.get NAME_KEY)).asString with
        | .error p => .error p
        | .ok shortDesc =>
          match (getOrDefault entry LONG_DESC_KEY (.str shortDesc)).asString with
          | .error p => .error p
          | .ok longDesc =>
            createCommandsFromEntries rest
              ⟨cmdMap, st.commands ++ [⟨command, shortDesc, longDesc⟩], st.stderr⟩

/-- The function `convertRawListToMapsOfStrings`. -/
def convertRawListToMapsOfStrings : List Value → Except Panic (List Entry)
  | [] => .ok []
  | e :: rest =>
    match e.asMap with
    | .error p => .error p
    | .ok m =>
      match convertRawListToMapsOfStrings rest with
      | .error p => .error p
      | .ok ms => .ok (m :: ms)

/-- The function `initConfig`. The two answers of viper are its parameters: `readErr` is the
error of `viper.ReadInConfig()` and `entriesVal` the value of `viper.Get("entries")`, which is
the nil interface when no configuration was loaded or it has no such key. -/
def initConfig (readErr : Option String) (entriesVal : Value) (st : State) :
    Except Panic State :=
  let st1 : State :=
    match readErr with
    | some err => ⟨st.cmdMap, st.commands, st.stderr ++ [Diagnostic.configRead err]⟩
    | none => st
  match entriesVal.asList with
  | .error p => .error p
  | .ok list =>
    match convertRawListToMapsOfStrings list with
    | .error p => .error p
    | .ok entries => createCommandsFromEntries entries st1

/-! ## Fetching and extraction -/

/-- The kinds of `html.Node`. -/
inductive NodeType where
  | ErrorNode
  | TextNode
  | DocumentNode
  | ElementNode
  | CommentNode
  | DoctypeNode
  deriving DecidableEq

/-- A parsed `html.Node`: its kind, its `Data` (the content of a text node, the tag name of an
element) and its children in document order. -/
inductive Node where
  | mk (type : NodeType) (data : String) (children : List Node)

/-- The field `Type` of a node. -/
def Node.Type : Node → NodeType
  | .mk t _ _ => t

/-- The field `Data` of a node. -/
def Node.Data : Node → String
  | .mk _ d _ => d

/-- The field `FirstChild` of a node: `none` is the nil pointer. -/
def Node.FirstChild : Node → Option Node
  | .mk _ _ cs => cs.head?

/-- A fetched document: `Find` gives the nodes matching a query, in document order. -/
structure Document where
  Find : String → List Node

/-- The answer of `goquery.NewDocument` for every url: a document, or the text of the error. -/
abbrev Fetcher := String → Except String Document

/-- Whether the cutset of a trim contains the character. -/
def inCutset (cutset : String) (c : Char) : Bool :=
  cutset.data.contains c

/-- The function `strings.TrimLeft` on the characters of a string. -/
def trimLeftChars (cutset : String) (s : List Char) : List Char :=
  s.dropWhile (inCutset cutset)

/-- The function `strings.TrimRight` on the characters of a string. -/
def trimRightChars (cutset : String) (s : List Char) : List Char :=
  (s.reverse.dropWhile (inCutset cutset)).reverse

/-- The function `strings.Trim`: all leading and trailing characters of `cutset` removed. -/
def strings.Trim (s cutset : String) : String :=
  String.mk (trimLeftChars cutset (trimRightChars cutset s.data))

/-- The cutset `" \n\t\r"` of `getNLatest`. -/
def WHITESPACE : String := " \n\t\r"

/-- The line appended to the block for a matched node whose first child has data `t`. -/
def itemLine (t : String) : String :=
  "\t" ++ strings.Trim t WHITESPACE ++ "\n"

/-- The line that `getNLatest` appends for a matched node that has a first child (nothing is
appended by this helper for a node without one). -/
def nodeLine (n : Node) : String :=
  match n.FirstChild with
  | some child => itemLine child.Data
  | none => ""

/-- Whether the text of `block` starts with the text of `start`. -/
def beginsWith (block start : String) : Bool :=
  start.data.isPrefixOf block.data

/-- The loop `for ix := range sel.Nodes` of `getNLatest`, over the remaining indexed nodes. -/
def getNLatest.loop (limit : Int) : List (Nat × Node) → String → Except Panic String
  | [], ret => .ok ret
  | (ix, node) :: rest, ret =>
    if (ix : Int) < limit then
      match node.FirstChild with
      | none => .error .nilDereference
      | some child => getNLatest.loop limit rest (ret ++ itemLine child.Data)
    else
      getNLatest.loop limit rest ret

/-- The function `getNLatest`; `fetch` stands for `goquery.NewDocument`. -/
def getNLatest (fetch : Fetcher) (url query : String) (limit : Int) (name : String) :
    Except Panic String :=
  match fetch url with
  | .error err => .ok ("Error reaching " ++ url ++ "\n\t" ++ err ++ "\n")
  | .ok doc => getNLatest.loop limit (doc.Find query).enum (name ++ "\n")

/-! ## The all-sources run -/

/-- The body of the goroutine started for one sub-command: the block it sends on the channel.
A sub-command without a registry entry reads the nil map. -/
def fetchUnit (fetch : Fetcher) (cmdMap : List (String × Entry)) (numResultsPerCommand : Int)
    (subCmd : Command) : Except Panic String :=
  let e : Entry := (mapGet cmdMap subCmd.Use).getD []
  match (e.get URL_KEY).asString with
  | .error p => .error p
  | .ok url =>
    match (e.get QUERY_KEY).asString with
    | .error p => .error p
    | .ok query =>
      match (e.get NAME_KEY).asString with
      | .error p => .error p
      | .ok name => getNLatest fetch url query numResultsPerCommand name

/-- What `parallelPrintLatestOfAllCommands` sets in motion: the block of every goroutine it
starts, in start order, and the number of receive-and-print iterations of its second loop. -/
structure AllRun where
  sent : List (Except Panic String)
  receives : Nat

/-- The function `parallelPrintLatestOfAllCommands` over the sub-commands `rootCmd.Commands()`. -/
def parallelPrintLatestOfAllCommands (fetch : Fetcher) (cmdMap : List (String × Entry))
    (commands : List Command) (numResultsPerCommand : Int) : AllRun where
  sent := (commands.filter (fun subCmd => subCmd.Name != "help")).map
    (fetchUnit fetch cmdMap numResultsPerCommand)
  receives := ((commands.length : Int) - 1).toNat

/-- The help command that cobra adds by itself. -/
def helpCommand : Command :=
  ⟨"help [command]", "Help about any command",
    "Help provides help for any command in the application."⟩

/-- The sub-commands of the root when it runs: those added by `createCommandsFromEntries`, and
the help command, which cobra adds on execution to a root that has sub-commands. -/
def rootCommands (st : State) : List Command :=
  if st.commands.isEmpty then [] else st.commands ++ [helpCommand]

/-- The flag characters of a formatting directive. -/
def isFlagChar (c : Char) : Bool :=
  c == '#' || c == '0' || c == '+' || c == '-' || c == ' '

/-- The text written for a directive whose verb is `verb`, when no operand is left: `%%` is a
percent sign, any other verb is reported as missing its operand. Width, precision and
argument-index forms are outside the modelled fragment (`none`). -/
def formatVerb (verb : Char) (rest : Option (List Char)) : Option (List Char) :=
  if verb.isDigit || verb == '.' || verb == '*' || verb == '[' then none
  else if verb == '%' then rest.map (fun r => '%' :: r)
  else rest.map (fun r => "%!".data ++ verb :: "(MISSING)".data ++ r)

/-- The scan of a format string by `fmt` with no operands: `inDirective` is set after a `%`,
while flags are skipped. -/
def formatNoOperands : Bool → List Char → Option (List Char)
  | false, [] => some []
  | true, [] => some "%!(NOVERB)".data
  | false, c :: cs =>
    if c == '%' then formatNoOperands true cs
    else (formatNoOperands false cs).map (fun r => c :: r)
  | true, c :: cs =>
    if isFlagChar c then formatNoOperands true cs
    else formatVerb c (formatNoOperands false cs)

/-- The text that `fmt.Printf(format)` writes to standard output when it is called with a
format string and no further argument. -/
def fmt.Printf (format : String) : Option String :=
  (formatNoOperands false format.data).map String.mk

/-- Every value stored in the entry is a string. -/
def fieldsAreStrings (entry : Entry) : Bool :=
  entry.all (fun p => p.2.holdsString)

/-- The entry passes validation and its `command` field is the string `c`. -/
def registersAs (c : String) (entry : Entry) : Bool :=
  (validateEntry entry).isNone && (entry.get COMMAND_KEY).isString c

/-- The commands of the entries that pass validation, in the order of the list. -/
def validCommands (entries : List Entry) : List String :=
  entries.filterMap (fun e =>
    if (validateEntry e).isNone then
      match e.get COMMAND_KEY with
      | .str c => some c
      | _ => none
    else none)

/-! ## Concrete configurations and documents -/

/-- The first entry of the scenario of two entries: complete. -/
def scenarioEntryA : Entry :=
  [(.str "command", .str "a"), (.str "url", .str "http://x"), (.str "query", .str "p"),
    (.str "name", .str "A")]

/-- The second entry of the scenario of two entries: only a command. -/
def scenarioEntryB : Entry := [(.str "command", .str "b")]

/-- A complete entry whose command is `help`. -/
def helpEntry : Entry :=
  [(.str "url", .str "http://h"), (.str "query", .str "li"), (.str "name", .str "H"),
    (.str "command", .str "help")]

/-- A second complete entry with the command of `scenarioEntryA`. -/
def scenarioEntryA2 : Entry :=
  [(.str "url", .str "http://y"), (.str "query", .str "li"), (.str "name", .str "A2"),
    (.str "command", .str "a")]

/-- An element `<li>` holding one text node. -/
def textItem (t : String) : Node :=
  Node.mk .ElementNode "li" [Node.mk .TextNode t []]

/-- An element `<li></li>` without children. -/
def emptyItem : Node :=
  Node.mk .ElementNode "li" []

/-- A document in which the query `li` matches the given nodes and no other query matches. -/
def documentOf (nodes : List Node) : Document :=
  ⟨fun query => if query == "li" then nodes else []⟩

/-- A network on which `url` serves `doc` and every other address cannot be reached. -/
def fetchOnly (url : String) (doc : Document) : Fetcher :=
  fun u => if u == url then .ok doc else .error "no such host"

/-- The raw texts of the seven matches of the round-trip document. -/
def sevenTexts : List String :=
  [" one ", "\ttwo\n", "three", "\r\nfour", "five  ", "six", " seven"]

/-- The round-trip document: seven matching nodes. -/
def sevenDocument : Document := documentOf (sevenTexts.map textItem)

/-! # Theorems -/

/-! ## Validation -/

theorem validateEntry_loop_eq_find (entry : Entry) (keys : List String) :
    validateEntry.loop entry keys =
      (keys.find? (fun k => (entry.get k).isNil)).map
        (fun k => k ++ " is a required config value") := by
  induction keys with
  | nil => rfl
  | cons k rest ih =>
    by_cases hk : (entry.get k).isNil = true
    · simp [validateEntry.loop, List.find?, hk]
    · simp [validateEntry.loop, List.find?, hk, ih]

/-- C1: `validateEntry` returns nil exactly when the values under url, query, name and command
are all non-nil; otherwise its error names the first required key, in the order url, query,
name, command, whose value is missing or nil. Presence is the only check: values of any type,
the empty string included, pass. -/
theorem validateEntry_spec (entry : Entry) :
    (validateEntry entry = none ↔ ∀ k ∈ REQUIRED_CONFIG, (entry.get k).isNil = false) ∧
    validateEntry entry =
      (["url", "query", "name", "command"].find? (fun k => (entry.get k).isNil)).map
        (fun k => k ++ " is a required config value") ∧
    validateEntry [(.str "url", .str ""), (.str "query", .int 0), (.str "name", .bool false),
      (.str "command", .seq [])] = none := by
  refine ⟨?_, validateEntry_loop_eq_find entry _, rfl⟩
  unfold validateEntry
  rw [validateEntry_loop_eq_find]
  simp [List.find?_eq_none]

/-! ## Registration -/

theorem mapGet_filter_ne (m : List (String × Entry)) (k c : String) (hkc : ¬ k = c) :
    mapGet (m.filter (fun p => p.1 != k)) c = mapGet m c := by
  induction m with
  | nil => rfl
  | cons p rest ih =>
    by_cases hp : p.1 = k
    · have hpc : ¬ p.1 = c := by rw [hp]; exact hkc
      rw [List.filter_cons_of_neg (by simp [hp])]
      simp [mapGet, hpc, ih]
    · rw [List.filter_cons_of_pos (by simp [hp])]
      by_cases hpc : p.1 = c
      · simp [mapGet, hpc]
      · simp [mapGet, hpc, ih]

theorem mapGet_mapSet (m : List (String × Entry)) (k c : String) (v : Entry) :
    mapGet (mapSet m k v) c = if k = c then some v else mapGet m c := by
  by_cases hkc : k = c
  · simp [mapSet, mapGet, hkc]
  · simp [mapSet, mapGet, hkc, mapGet_filter_ne m k c hkc]

theorem get_of_fieldsAreStrings (entry : Entry) (k : String)
    (h : fieldsAreStrings entry = true) :
    entry.get k = .null ∨ ∃ s, entry.get k = .str s := by
  unfold Entry.get
  cases hf : entry.find? (fun p => p.1.isString k) with
  | none => exact Or.inl rfl
  | some p =>
    have hp : p ∈ entry := List.mem_of_find?_eq_some hf
    have hs : p.2.holdsString = true := by
      unfold fieldsAreStrings at h
      exact (List.all_eq_true.mp h) p hp
    cases hv : p.2 with
    | str s => exact Or.inr ⟨s, by simp [hv]⟩
    | null => exact Or.inl (by simp [hv])
    | int i => simp [hv, Value.holdsString] at hs
    | bool b => simp [hv, Value.holdsString] at hs
    | seq xs => simp [hv, Value.holdsString] at hs
    | dict kvs => simp [hv, Value.holdsString] at hs

theorem getOrDefault_string (entry : Entry) (k d : String)
    (h : fieldsAreStrings entry = true) :
    ∃ s, getOrDefault entry k (.str d) = .str s := by
  unfold getOrDefault
  rcases get_of_fieldsAreStrings entry k h with h0 | ⟨s, hs⟩
  · exact ⟨d, by simp [h0, Value.isNil]⟩
  · exact ⟨s, by simp [hs, Value.isNil]⟩

theorem required_of_valid (entry : Entry) (hv : validateEntry entry = none) (k : String)
    (hk : k ∈ REQUIRED_CONFIG) : (entry.get k).isNil = false := by
  have h := (validateEntry_loop_eq_find entry REQUIRED_CONFIG)
  unfold validateEntry at hv
  rw [hv] at h
  have h2 : REQUIRED_CONFIG.find? (fun k => (entry.get k).isNil) = none := by
    cases hf : REQUIRED_CONFIG.find? (fun k => (entry.get k).isNil) with
    | none => rfl
    | some x => rw [hf] at h; simp at h
  have := List.find?_eq_none.mp h2 k hk
  simpa using this

theorem required_string (entry : Entry) (h : fieldsAreStrings entry = true)
    (hv : validateEntry entry = none) (k : String) (hk : k ∈ REQUIRED_CONFIG) :
    ∃ s, entry.get k = .str s := by
  have hn := required_of_valid entry hv k hk
  rcases get_of_fieldsAreStrings entry k h with h0 | hs
  · rw [h0] at hn; simp [Value.isNil] at hn
  · exact hs

theorem getLast?_cons_or {α : Type} (a : α) (l : List α) :
    (a :: l).getLast? = (l.getLast?).or (some a) := by
  cases l with
  | nil => rfl
  | cons b t => simp [List.getLast?_cons_cons, List.getLast?_eq_getLast]

theorem createCommandsFromEntries_from (entries : List Entry)
    (h : ∀ e ∈ entries, fieldsAreStrings e = true) (st0 : State) :
    ∃ st, createCommandsFromEntries entries st0 = .ok st ∧
      ∀ c, mapGet st.cmdMap c =
        ((entries.filter (registersAs c)).getLast?).or (mapGet st0.cmdMap c) := by
  induction entries generalizing st0 with
  | nil => exact ⟨st0, rfl, fun c => by simp⟩
  | cons e rest ih =>
    have hrest : ∀ x ∈ rest, fieldsAreStrings x = true :=
      fun x hx => h x (List.mem_cons_of_mem _ hx)
    have he : fieldsAreStrings e = true := h e (List.mem_cons_self _ _)
    cases hv : validateEntry e with
    | some err =>
      obtain ⟨st, hst, hget⟩ := ih hrest
        ⟨st0.cmdMap, st0.commands, st0.stderr ++ [Diagnostic.configEntry e err]⟩
      refine ⟨st, by simp [createCommandsFromEntries, hv, hst], fun c => ?_⟩
      rw [hget c]
      simp [List.filter, registersAs, hv]
    | none =>
      obtain ⟨command, hcmd⟩ := required_string e he hv COMMAND_KEY (by simp [REQUIRED_CONFIG])
      obtain ⟨name, hname⟩ := required_string e he hv NAME_KEY (by simp [REQUIRED_CONFIG])
      obtain ⟨shortDesc, hshort⟩ := getOrDefault_string e SHORT_DESC_KEY name he
      obtain ⟨longDesc, hlong⟩ := getOrDefault_string e LONG_DESC_KEY shortDesc he
      obtain ⟨st, hst, hget⟩ := ih hrest
        ⟨mapSet st0.cmdMap command e, st0.commands ++ [⟨command, shortDesc, longDesc⟩],
          st0.stderr⟩
      refine ⟨st, ?_, fun c => ?_⟩
      · simp [createCommandsFromEntries, hv, hcmd, hname, hshort, hlong, Value.asString, hst]
      · rw [hget c]
        simp only [mapGet_mapSet]
        by_cases hc : command = c
        · have hr : registersAs c e = true := by
            simp [registersAs, hv, hcmd, Value.isString, hc]
          rw [List.filter_cons_of_pos hr, getLast?_cons_or, if_pos hc]
          cases (List.filter (registersAs c) rest).getLast? <;> rfl
        · have hr : registersAs c e = false := by
            simp [registersAs, hv, hcmd, Value.isString, hc]
          rw [List.filter_cons_of_neg (by simp [hr]), if_neg hc]

/-- C2: when every value stored in the entries is a string, `createCommandsFromEntries` run on
an empty `cmdMap` finishes, and looking a command `c` up in the resulting `cmdMap` yields the
last entry of the list that passes `validateEntry` and has command `c`, and nothing when the
list has no such entry; so every registered entry is valid, invalid entries are skipped without
stopping the later ones, and a later valid entry overwrites an earlier one with its command. -/
theorem createCommandsFromEntries_registry (entries : List Entry) (st0 : State)
    (hempty : st0.cmdMap = [])
    (h : ∀ e ∈ entries, fieldsAreStrings e = true) :
    ∃ st, createCommandsFromEntries entries st0 = .ok st ∧
      (∀ c, mapGet st.cmdMap c = (entries.filter (registersAs c)).getLast?) ∧
      (∀ c e, mapGet st.cmdMap c = some e →
        e ∈ entries ∧ validateEntry e = none ∧ e.get COMMAND_KEY = .str c) := by
  obtain ⟨st, hst, hget⟩ := createCommandsFromEntries_from entries h st0
  have hget2 : ∀ c, mapGet st.cmdMap c = (entries.filter (registersAs c)).getLast? := by
    intro c
    rw [hget c, hempty]
    simp [mapGet]
  refine ⟨st, hst, hget2, fun c e hce => ?_⟩
  rw [hget2 c] at hce
  have hmem : e ∈ entries.filter (registersAs c) := List.mem_of_getLast?_eq_some hce
  rw [List.mem_filter] at hmem
  obtain ⟨hin, hreg⟩ := hmem
  simp only [registersAs, Bool.and_eq_true, Option.isNone_iff_eq_none] at hreg
  refine ⟨hin, hreg.1, ?_⟩
  have h2 := hreg.2
  cases hv : e.get COMMAND_KEY with
  | str s => rw [hv] at h2; simp [Value.isString] at h2; rw [h2]
  | null => rw [hv] at h2; simp [Value.isString] at h2
  | int i => rw [hv] at h2; simp [Value.isString] at h2
  | bool b => rw [hv] at h2; simp [Value.isString] at h2
  | seq xs => rw [hv] at h2; simp [Value.isString] at h2
  | dict kvs => rw [hv] at h2; simp [Value.isString] at h2

/-! ## Extraction -/

theorem append_join_cons (acc a : String) (l : List String) :
    acc ++ a ++ String.join l = acc ++ String.join (a :: l) := by
  apply String.ext
  simp [String.data_append, String.data_join]

theorem join_nil_append (acc : String) : acc ++ String.join [] = acc := by
  apply String.ext
  simp [String.data_append, String.data_join]

theorem getNLatest_loop_ok (limit : Nat) (nodes : List Node) (k : Nat) (acc : String)
    (h : (nodes.take (limit - k)).all (fun n => n.FirstChild.isSome) = true) :
    getNLatest.loop (limit : Int) (nodes.enumFrom k) acc =
      .ok (acc ++ String.join ((nodes.take (limit - k)).map nodeLine)) := by
  induction nodes generalizing k acc with
  | nil =>
    simp only [List.enumFrom_nil, getNLatest.loop, List.take_nil, List.map_nil, join_nil_append]
  | cons n rest ih =>
    simp only [List.enumFrom_cons, getNLatest.loop]
    by_cases hk : k < limit
    · have hk2 : (k : Int) < (limit : Int) := by exact_mod_cast hk
      have hsub : limit - k = (limit - (k + 1)) + 1 := by omega
      rw [hsub, List.take_succ_cons, List.all_cons, Bool.and_eq_true] at h
      obtain ⟨hn, hrest⟩ := h
      cases hc : n.FirstChild with
      | none => rw [hc] at hn; simp at hn
      | some child =>
        rw [if_pos hk2]
        dsimp only
        rw [ih (k + 1) (acc ++ itemLine child.Data) hrest, hsub,
          List.take_succ_cons, List.map_cons, append_join_cons]
        simp [nodeLine, hc]
    · have hk2 : ¬ (k : Int) < (limit : Int) := by exact_mod_cast hk
      have hsub : limit - k = 0 := by omega
      have hsub2 : limit - (k + 1) = 0 := by omega
      rw [if_neg hk2, ih (k + 1) acc (by simp [hsub2]), hsub, hsub2]
      simp

theorem getNLatest_ok (fetch : Fetcher) (url query name : String) (limit : Nat) (doc : Document)
    (hfetch : fetch url = .ok doc)
    (h : ((doc.Find query).take limit).all (fun n => n.FirstChild.isSome) = true) :
    getNLatest fetch url query limit name =
      .ok (name ++ "\n" ++ String.join (((doc.Find query).take limit).map nodeLine)) := by
  unfold getNLatest
  rw [hfetch]
  dsimp only
  rw [List.enum, getNLatest_loop_ok limit (doc.Find query) 0 (name ++ "\n") (by simpa using h)]
  simp

theorem getNLatest_loop_panics (limit : Nat) (nodes : List Node) (k : Nat) (acc : String)
    (h : (nodes.take (limit - k)).any (fun n => n.FirstChild.isNone) = true) :
    getNLatest.loop (limit : Int) (nodes.enumFrom k) acc = .error .nilDereference := by
  induction nodes generalizing k acc with
  | nil => simp at h
  | cons n rest ih =>
    simp only [List.enumFrom_cons, getNLatest.loop]
    by_cases hk : k < limit
    · have hk2 : (k : Int) < (limit : Int) := by exact_mod_cast hk
      have hsub : limit - k = (limit - (k + 1)) + 1 := by omega
      rw [hsub, List.take_succ_cons, List.any_cons, Bool.or_eq_true] at h
      rw [if_pos hk2]
      cases hc : n.FirstChild with
      | none => rfl
      | some child =>
        rcases h with h | h
        · rw [hc] at h; simp at h
        · exact ih (k + 1) _ h
    · have hsub : limit - k = 0 := by omega
      rw [hsub] at h
      simp at h

/-- Whenever one of the first `limit` matches of a fetched document has no first child,
`getNLatest` panics. -/
theorem getNLatest_panics (fetch : Fetcher) (url query name : String) (limit : Nat)
    (doc : Document) (hfetch : fetch url = .ok doc)
    (h : ((doc.Find query).take limit).any (fun n => n.FirstChild.isNone) = true) :
    getNLatest fetch url query limit name = .error .nilDereference := by
  unfold getNLatest
  rw [hfetch]
  dsimp only
  rw [List.enum]
  exact getNLatest_loop_panics limit (doc.Find query) 0 (name ++ "\n") (by simpa using h)

theorem firstChildren_of_texts (nodes : List Node) (texts : List String)
    (h : nodes.map (fun n => n.FirstChild.map Node.Data) = texts.map some) (limit : Nat) :
    (nodes.take limit).all (fun n => n.FirstChild.isSome) = true ∧
      (nodes.take limit).map nodeLine = (texts.take limit).map itemLine := by
  induction nodes generalizing texts limit with
  | nil =>
    cases texts with
    | nil => simp
    | cons t ts => simp at h
  | cons n rest ih =>
    cases texts with
    | nil => simp at h
    | cons t ts =>
      simp only [List.map_cons, List.cons.injEq] at h
      obtain ⟨hn, hrest⟩ := h
      cases limit with
      | zero => simp
      | succ l =>
        obtain ⟨h1, h2⟩ := ih ts hrest l
        cases hc : n.FirstChild with
        | none => rw [hc] at hn; simp at hn
        | some child =>
          rw [hc] at hn
          simp only [Option.map_some', Option.some.injEq] at hn
          refine ⟨?_, ?_⟩
          · rw [List.take_succ_cons, List.all_cons, h1, hc]
            rfl
          · rw [List.take_succ_cons, List.take_succ_cons, List.map_cons, List.map_cons, h2]
            simp [nodeLine, hc, hn]

theorem beginsWith_append (a b : String) : beginsWith (a ++ b) a = true := by
  simp [beginsWith, String.data_append]

theorem trimRightChars_decomp (cutset : String) (s : List Char) :
    ∃ post, s = trimRightChars cutset s ++ post ∧ post.all (inCutset cutset) = true := by
  refine ⟨(s.reverse.takeWhile (inCutset cutset)).reverse, ?_, ?_⟩
  · unfold trimRightChars
    rw [← List.reverse_append, List.takeWhile_append_dropWhile, List.reverse_reverse]
  · rw [List.all_reverse]
    exact List.all_takeWhile

theorem trimLeftChars_decomp (cutset : String) (s : List Char) :
    ∃ pre, s = pre ++ trimLeftChars cutset s ∧ pre.all (inCutset cutset) = true :=
  ⟨s.takeWhile (inCutset cutset), (List.takeWhile_append_dropWhile _ _).symm,
    List.all_takeWhile⟩

theorem head_dropWhile_not (p : Char → Bool) (l : List Char) (c : Char)
    (h : (l.dropWhile p).head? = some c) : p c = false := by
  have := List.head?_dropWhile_not p l
  rw [h] at this
  exact this

theorem trimRightChars_last (cutset : String) (s : List Char) (c : Char)
    (h : (trimRightChars cutset s).getLast? = some c) : inCutset cutset c = false := by
  unfold trimRightChars at h
  rw [List.getLast?_reverse] at h
  exact head_dropWhile_not _ _ c h

theorem getLast?_of_suffix (pre l : List Char) (c : Char) (h : l.getLast? = some c) :
    (pre ++ l).getLast? = some c := by
  rw [List.getLast?_append, h]
  rfl

/-- What `strings.Trim` does: the result is the string without a maximal run of cutset
characters at each end. -/
theorem strings_Trim_spec (s cutset : String) :
    (∃ pre post, s.data = pre ++ (strings.Trim s cutset).data ++ post ∧
      pre.all (inCutset cutset) = true ∧ post.all (inCutset cutset) = true) ∧
    (∀ c, (strings.Trim s cutset).data.head? = some c → inCutset cutset c = false) ∧
    (∀ c, (strings.Trim s cutset).data.getLast? = some c → inCutset cutset c = false) := by
  obtain ⟨post, hpost, hpostall⟩ := trimRightChars_decomp cutset s.data
  obtain ⟨pre, hpre, hpreall⟩ := trimLeftChars_decomp cutset (trimRightChars cutset s.data)
  refine ⟨⟨pre, post, ?_, hpreall, hpostall⟩, ?_, ?_⟩
  · show s.data = pre ++ trimLeftChars cutset (trimRightChars cutset s.data) ++ post
    rw [← hpre]
    exact hpost
  · intro c hc
    exact head_dropWhile_not _ _ c hc
  · intro c hc
    apply trimRightChars_last cutset s.data c
    rw [hpre]
    exact getLast?_of_suffix _ _ c hc

theorem inCutset_WHITESPACE (c : Char) :
    inCutset WHITESPACE c = true ↔ c = ' ' ∨ c = '\n' ∨ c = '\t' ∨ c = '\r' := by
  simp [inCutset, WHITESPACE]

/-! ## The claims about `getNLatest` -/

/-- C5: on a successful fetch whose matches have first children with contents `t_0 .. t_(m-1)`
in document order, `getNLatest` returns the name and a newline followed, for the first
`min(limit, m)` matches in that order, by a tab, the trimmed content and a newline; the trimmed
content is the content without a run of spaces, tabs, newlines and carriage returns at each
end, and neither begins nor ends with one of these four characters. -/
theorem getNLatest_success_block (fetch : Fetcher) (url query name : String) (limit : Nat)
    (doc : Document) (texts : List String)
    (hfetch : fetch url = .ok doc)
    (htexts : (doc.Find query).map (fun n => n.FirstChild.map Node.Data) = texts.map some) :
    getNLatest fetch url query limit name =
      .ok (name ++ "\n" ++ String.join ((texts.take limit).map
        (fun t => "\t" ++ strings.Trim t " \n\t\r" ++ "\n"))) ∧
    (texts.take limit).length = min limit (doc.Find query).length ∧
    ∀ t : String,
      (∃ pre post, t.data = pre ++ (strings.Trim t " \n\t\r").data ++ post ∧
        (∀ c ∈ pre, c = ' ' ∨ c = '\n' ∨ c = '\t' ∨ c = '\r') ∧
        (∀ c ∈ post, c = ' ' ∨ c = '\n' ∨ c = '\t' ∨ c = '\r')) ∧
      (∀ c, (strings.Trim t " \n\t\r").data.head? = some c →
        ¬ (c = ' ' ∨ c = '\n' ∨ c = '\t' ∨ c = '\r')) ∧
      (∀ c, (strings.Trim t " \n\t\r").data.getLast? = some c →
        ¬ (c = ' ' ∨ c = '\n' ∨ c = '\t' ∨ c = '\r')) := by
  obtain ⟨hall, hmap⟩ := firstChildren_of_texts (doc.Find query) texts htexts limit
  refine ⟨?_, ?_, fun t => ?_⟩
  · rw [getNLatest_ok fetch url query name limit doc hfetch hall, hmap]
    rfl
  · have hlen : (doc.Find query).length = texts.length := by
      have := congrArg List.length htexts
      simpa using this
    rw [List.length_take, hlen]
  · obtain ⟨⟨pre, post, hdec, hpre, hpost⟩, hhead, hlast⟩ := strings_Trim_spec t WHITESPACE
    refine ⟨⟨pre, post, hdec, fun c hc => ?_, fun c hc => ?_⟩, fun c hc => ?_, fun c hc => ?_⟩
    · exact (inCutset_WHITESPACE c).mp (List.all_eq_true.mp hpre c hc)
    · exact (inCutset_WHITESPACE c).mp (List.all_eq_true.mp hpost c hc)
    · intro hws
      have := hhead c hc
      rw [(inCutset_WHITESPACE c).mpr hws] at this
      exact Bool.noConfusion this
    · intro hws
      have := hlast c hc
      rw [(inCutset_WHITESPACE c).mpr hws] at this
      exact Bool.noConfusion this

/-- The round trip of C5: seven matches and limit 3 give the first three trimmed texts, in
document order. -/
theorem getNLatest_success_block_witness :
    fetchOnly "http://x" sevenDocument "http://x" = .ok sevenDocument ∧
    (sevenDocument.Find "li").map (fun n => n.FirstChild.map Node.Data) = sevenTexts.map some ∧
    getNLatest (fetchOnly "http://x" sevenDocument) "http://x" "li" 3 "N" =
      .ok "N\n\tone\n\ttwo\n\tthree\n" :=
  ⟨rfl, rfl,
    (getNLatest_success_block (fetchOnly "http://x" sevenDocument) "http://x" "li" "N" 3
      sevenDocument sevenTexts rfl rfl).1⟩

/-- C8: when the fetch of `url` fails with error text `e`, `getNLatest` returns the block
`Error reaching <url>`, newline, tab, `e`, newline, and nothing else, whatever the query, the
limit and the name are. -/
theorem getNLatest_fetch_error (fetch : Fetcher) (url e : String)
    (hfetch : fetch url = .error e) (query name : String) (limit : Int) :
    getNLatest fetch url query limit name =
      .ok ("Error reaching " ++ url ++ "\n\t" ++ e ++ "\n") := by
  unfold getNLatest
  rw [hfetch]

/-- An unreachable address gives the error block, for two different queries and limits. -/
theorem getNLatest_fetch_error_witness :
    fetchOnly "http://x" sevenDocument "http://down" = .error "no such host" ∧
    getNLatest (fetchOnly "http://x" sevenDocument) "http://down" "li" 3 "N" =
      .ok "Error reaching http://down\n\tno such host\n" ∧
    getNLatest (fetchOnly "http://x" sevenDocument) "http://down" "p" 0 "N" =
      .ok "Error reaching http://down\n\tno such host\n" :=
  ⟨rfl,
    getNLatest_fetch_error (fetchOnly "http://x" sevenDocument) "http://down" "no such host" rfl
      "li" "N" 3,
    getNLatest_fetch_error (fetchOnly "http://x" sevenDocument) "http://down" "no such host" rfl
      "p" "N" 0⟩

/-- C9 fails on a failed fetch: the block of the source named `N` at an unreachable address
is the error text, which does not begin with `N`. -/
theorem getNLatest_error_block_not_named :
    getNLatest (fetchOnly "http://x" sevenDocument) "http://down" "li" 3 "N" =
      .ok "Error reaching http://down\n\tno such host\n" ∧
    beginsWith "Error reaching http://down\n\tno such host\n" "N" = false :=
  ⟨rfl, rfl⟩

theorem getNLatest_loop_toNat (limit : Int) (l : List (Nat × Node)) (acc : String) :
    getNLatest.loop limit l acc = getNLatest.loop (limit.toNat : Int) l acc := by
  induction l generalizing acc with
  | nil => rfl
  | cons p rest ih =>
    obtain ⟨ix, node⟩ := p
    simp only [getNLatest.loop]
    by_cases hix : (ix : Int) < limit
    · have hix2 : (ix : Int) < (limit.toNat : Int) := by omega
      rw [if_pos hix, if_pos hix2]
      cases node.FirstChild with
      | none => rfl
      | some child => exact ih _
    · have hix2 : ¬ (ix : Int) < (limit.toNat : Int) := by omega
      rw [if_neg hix, if_neg hix2]
      exact ih _

/-- The block of a successful fetch for a limit of any sign: a limit below zero reads no
match, as limit zero does. -/
theorem getNLatest_ok_of_int (fetch : Fetcher) (url query name : String) (limit : Int)
    (doc : Document) (hfetch : fetch url = .ok doc)
    (h : ((doc.Find query).take limit.toNat).all (fun n => n.FirstChild.isSome) = true) :
    getNLatest fetch url query limit name =
      .ok (name ++ "\n" ++ String.join (((doc.Find query).take limit.toNat).map nodeLine)) := by
  rw [← getNLatest_ok fetch url query name limit.toNat doc hfetch h]
  unfold getNLatest
  rw [hfetch]
  exact getNLatest_loop_toNat limit _ _

/-- C9, amended: for a limit of any sign, when the fetch succeeds and each of the first `limit`
matches (none of them when the limit is not positive) has a first child, `getNLatest` returns
a block that begins with the name of the source; when the fetch fails with error text `e` it
returns the block `Error reaching <url>`, newline, tab, `e`, newline, which begins with
`Error reaching ` and the url and is the same whatever the name is. -/
theorem getNLatest_block_start (fetch : Fetcher) (url query name : String) (limit : Int)
    (hchildren : ∀ doc, fetch url = .ok doc →
      ((doc.Find query).take limit.toNat).all (fun n => n.FirstChild.isSome) = true) :
    ∃ block, getNLatest fetch url query limit name = .ok block ∧
      match fetch url with
      | .ok _ => beginsWith block name = true
      | .error e =>
        block = "Error reaching " ++ url ++ "\n\t" ++ e ++ "\n" ∧
          beginsWith block ("Error reaching " ++ url) = true := by
  cases hf : fetch url with
  | ok doc =>
    refine ⟨_, getNLatest_ok_of_int fetch url query name limit doc hf (hchildren doc hf), ?_⟩
    simp [beginsWith, String.data_append]
  | error e =>
    refine ⟨"Error reaching " ++ url ++ "\n\t" ++ e ++ "\n", ?_, rfl, ?_⟩
    · unfold getNLatest
      rw [hf]
    · simp [beginsWith, String.data_append]

/-- The scenario of C2: of the entries `a` (complete) and `b` (only a command) the registry
holds `a` alone. -/
theorem createCommandsFromEntries_registry_witness :
    State.initial.cmdMap = [] ∧
    (∀ e ∈ [scenarioEntryA, scenarioEntryB], fieldsAreStrings e = true) ∧
    ∃ st, createCommandsFromEntries [scenarioEntryA, scenarioEntryB] State.initial = .ok st ∧
      mapGet st.cmdMap "a" = some scenarioEntryA ∧ mapGet st.cmdMap "b" = none :=
  ⟨rfl, by decide,
    match createCommandsFromEntries_registry [scenarioEntryA, scenarioEntryB] State.initial rfl
      (by decide) with
    | ⟨st, hst, hget, _⟩ => ⟨st, hst, (hget "a").trans rfl, (hget "b").trans rfl⟩⟩

/-- The success case of the amended C9 on the round-trip document, with limit 3. -/
theorem getNLatest_block_start_witness :
    (∀ doc, fetchOnly "http://x" sevenDocument "http://x" = .ok doc →
      ((doc.Find "li").take (3 : Int).toNat).all (fun n => n.FirstChild.isSome) = true) ∧
    ∃ block, getNLatest (fetchOnly "http://x" sevenDocument) "http://x" "li" 3 "N" = .ok block ∧
      beginsWith block "N" = true :=
  have h : ∀ doc, fetchOnly "http://x" sevenDocument "http://x" = .ok doc →
      ((doc.Find "li").take (3 : Int).toNat).all (fun n => n.FirstChild.isSome) = true := by
    intro doc hdoc
    have hd : sevenDocument = doc := Except.ok.inj hdoc
    rw [← hd]
    rfl
  ⟨h, getNLatest_block_start (fetchOnly "http://x" sevenDocument) "http://x" "li" "N" 3 h⟩

/-! ## Inputs on which the program departs from its specification -/

/-- C4: a document whose only match is an element without children, asked for one item, makes
`getNLatest` dereference a nil first child: it panics where `min(1, 1) = 1` item is due. -/
theorem getNLatest_childless_match_panics :
    (documentOf [emptyItem]).Find "li" = [emptyItem] ∧
    getNLatest (fetchOnly "http://x" (documentOf [emptyItem])) "http://x" "li" 1 "N" =
      .error .nilDereference :=
  ⟨rfl, rfl⟩

/-- C7: a match without a child among the first `limit` matches is not rendered as an empty
item: `getNLatest` panics on it and returns no block, also after a match that has text. -/
theorem getNLatest_no_text_child_panics :
    emptyItem.FirstChild = none ∧
    getNLatest (fetchOnly "http://x" (documentOf [textItem "first", emptyItem, textItem "third"]))
      "http://x" "li" 5 "N" = .error .nilDereference :=
  ⟨rfl, rfl⟩

/-- C6: when `viper.Get("entries")` yields the nil interface, `initConfig` panics on its type
assertion, whether or not reading the configuration reported an error, instead of finishing
with an empty registry. -/
theorem initConfig_without_entries_panics (readErr : Option String) (st : State) :
    initConfig readErr .null st = .error .typeAssertion :=
  rfl

/-- C3: with a single valid entry whose command is `help`, the registry has one source, no
fetch unit is started and one block is awaited; with two valid entries sharing the command
`a`, the registry has one source and two fetch units are started. -/
theorem parallelPrintLatestOfAllCommands_count_mismatch :
    (∃ st, createCommandsFromEntries [helpEntry] State.initial = .ok st ∧
      st.cmdMap.length = 1 ∧
      (parallelPrintLatestOfAllCommands (fun _ => .error "down") st.cmdMap
        (rootCommands st) 1).sent.length = 0 ∧
      (parallelPrintLatestOfAllCommands (fun _ => .error "down") st.cmdMap
        (rootCommands st) 1).receives = 1) ∧
    (∃ st, createCommandsFromEntries [scenarioEntryA, scenarioEntryA2] State.initial = .ok st ∧
      st.cmdMap.length = 1 ∧
      (parallelPrintLatestOfAllCommands (fun _ => .error "down") st.cmdMap
        (rootCommands st) 1).sent.length = 2 ∧
      (parallelPrintLatestOfAllCommands (fun _ => .error "down") st.cmdMap
        (rootCommands st) 1).receives = 2) :=
  ⟨⟨_, rfl, rfl, rfl, rfl⟩, ⟨_, rfl, rfl, rfl, rfl⟩⟩

/-- C10: the block of a source named `Deals` whose item reads `50% off` is not printed as it
is: the formatter takes `% o` for a directive that lacks its operand. -/
theorem printf_block_with_percent_differs :
    getNLatest (fetchOnly "http://x" (documentOf [textItem "50% off"])) "http://x" "li" 1 "Deals" =
      .ok "Deals\n\t50% off\n" ∧
    fmt.Printf "Deals\n\t50% off\n" = some "Deals\n\t50%!o(MISSING)ff\n" ∧
    "Deals\n\t50%!o(MISSING)ff\n" ≠ "Deals\n\t50% off\n" :=
  ⟨rfl, rfl, by decide⟩

theorem formatNoOperands_of_no_percent (l : List Char) (h : ∀ c ∈ l, c ≠ '%') :
    formatNoOperands false l = some l := by
  induction l with
  | nil => rfl
  | cons c cs ih =>
    have hc : c ≠ '%' := h c (List.mem_cons_self _ _)
    have hcs : ∀ x ∈ cs, x ≠ '%' := fun x hx => h x (List.mem_cons_of_mem _ hx)
    simp [formatNoOperands, hc, ih hcs]

/-- A block without a percent sign is printed as it is. -/
theorem fmt_Printf_of_no_percent (block : String) (h : ∀ c ∈ block.data, c ≠ '%') :
    fmt.Printf block = some block := by
  simp [fmt.Printf, formatNoOperands_of_no_percent block.data h]

/-! ## The all-sources run on configurations with distinct commands -/

theorem createCommandsFromEntries_shape (entries : List Entry)
    (h : ∀ e ∈ entries, fieldsAreStrings e = true) (st0 : State) :
    ∃ st, createCommandsFromEntries entries st0 = .ok st ∧
      st.commands.map Command.Use = st0.commands.map Command.Use ++ validCommands entries ∧
      st.cmdMap.map Prod.fst =
        (validCommands entries).foldl (fun ks c => c :: ks.filter (fun k => k != c))
          (st0.cmdMap.map Prod.fst) := by
  induction entries generalizing st0 with
  | nil => exact ⟨st0, rfl, by simp [validCommands], by simp [validCommands]⟩
  | cons e rest ih =>
    have hrest : ∀ x ∈ rest, fieldsAreStrings x = true :=
      fun x hx => h x (List.mem_cons_of_mem _ hx)
    have he : fieldsAreStrings e = true := h e (List.mem_cons_self _ _)
    cases hv : validateEntry e with
    | some err =>
      obtain ⟨st, hst, hcmds, hkeys⟩ := ih hrest
        ⟨st0.cmdMap, st0.commands, st0.stderr ++ [Diagnostic.configEntry e err]⟩
      refine ⟨st, by simp [createCommandsFromEntries, hv, hst], ?_, ?_⟩
      · rw [hcmds]; simp [validCommands, hv]
      · rw [hkeys]; simp [validCommands, hv]
    | none =>
      obtain ⟨command, hcmd⟩ := required_string e he hv COMMAND_KEY (by simp [REQUIRED_CONFIG])
      obtain ⟨name, hname⟩ := required_string e he hv NAME_KEY (by simp [REQUIRED_CONFIG])
      obtain ⟨shortDesc, hshort⟩ := getOrDefault_string e SHORT_DESC_KEY name he
      obtain ⟨longDesc, hlong⟩ := getOrDefault_string e LONG_DESC_KEY shortDesc he
      obtain ⟨st, hst, hcmds, hkeys⟩ := ih hrest
        ⟨mapSet st0.cmdMap command e, st0.commands ++ [⟨command, shortDesc, longDesc⟩],
          st0.stderr⟩
      have hvc : validCommands (e :: rest) = command :: validCommands rest := by
        simp [validCommands, hv, hcmd]
      refine ⟨st, ?_, ?_, ?_⟩
      · simp [createCommandsFromEntries, hv, hcmd, hname, hshort, hlong, Value.asString, hst]
      · rw [hcmds, hvc]; simp
      · rw [hkeys, hvc]
        simp [mapSet, List.filter_map, Function.comp_def]

theorem foldl_keys_of_nodup (cs ks : List String) (hcs : cs.Nodup)
    (hdis : ∀ c ∈ cs, c ∉ ks) :
    cs.foldl (fun ks c => c :: ks.filter (fun k => k != c)) ks = cs.reverse ++ ks := by
  induction cs generalizing ks with
  | nil => rfl
  | cons c rest ih =>
    rw [List.nodup_cons] at hcs
    have hc : c ∉ ks := hdis c (List.mem_cons_self _ _)
    have hfilter : ks.filter (fun k => k != c) = ks := by
      rw [List.filter_eq_self]
      intro k hk
      have : k ≠ c := fun hkc => hc (hkc ▸ hk)
      simpa using this
    rw [List.foldl_cons, hfilter, ih (c :: ks) hcs.2]
    · simp
    · intro x hx hmem
      rcases List.mem_cons.mp hmem with hxc | hxk
      · exact hcs.1 (hxc ▸ hx)
      · exact hdis x (List.mem_cons_of_mem _ hx) hxk

theorem filter_not_help (cmds : List Command)
    (h : ∀ c ∈ cmds, c.Name ≠ "help") :
    (cmds ++ [helpCommand]).filter (fun subCmd => subCmd.Name != "help") = cmds := by
  rw [List.filter_append]
  have h1 : cmds.filter (fun subCmd => subCmd.Name != "help") = cmds := by
    rw [List.filter_eq_self]
    intro c hc
    simpa using h c hc
  have h2 : [helpCommand].filter (fun subCmd => subCmd.Name != "help") = [] := rfl
  rw [h1, h2, List.append_nil]

/-- When the valid entries of a configuration of string-valued entries have pairwise distinct
commands, none of which is named `help`, the all-sources run starts as many fetch units as it
awaits blocks, and that number is the size of the registry. -/
theorem parallelPrintLatestOfAllCommands_counts_agree (fetch : Fetcher) (n : Int)
    (entries : List Entry) (h : ∀ e ∈ entries, fieldsAreStrings e = true)
    (hnodup : (validCommands entries).Nodup)
    (hhelp : ∀ c ∈ validCommands entries, (Command.mk c "" "").Name ≠ "help") :
    ∃ st, createCommandsFromEntries entries State.initial = .ok st ∧
      (parallelPrintLatestOfAllCommands fetch st.cmdMap (rootCommands st) n).sent.length =
        st.cmdMap.length ∧
      (parallelPrintLatestOfAllCommands fetch st.cmdMap (rootCommands st) n).receives =
        st.cmdMap.length ∧
      st.cmdMap.length = (validCommands entries).length := by
  obtain ⟨st, hst, hcmds, hkeys⟩ := createCommandsFromEntries_shape entries h State.initial
  have hlenc : st.commands.length = (validCommands entries).length := by
    have := congrArg List.length hcmds
    simpa [State.initial] using this
  have hlenm : st.cmdMap.length = (validCommands entries).length := by
    have := congrArg List.length hkeys
    rw [foldl_keys_of_nodup _ _ hnodup (by simp [State.initial])] at this
    simpa [State.initial] using this
  have hnames : ∀ c ∈ st.commands, c.Name ≠ "help" := by
    intro c hc
    have hu : c.Use ∈ validCommands entries := by
      have : c.Use ∈ st.commands.map Command.Use := List.mem_map_of_mem _ hc
      rw [hcmds] at this
      simpa [State.initial] using this
    exact hhelp c.Use hu
  refine ⟨st, hst, ?_, ?_, hlenm⟩
  · unfold parallelPrintLatestOfAllCommands rootCommands
    by_cases hemp : st.commands.isEmpty = true
    · have : st.commands = [] := List.isEmpty_iff.mp hemp
      simp [hemp, hlenm, ← hlenc, this]
    · simp only [hemp, if_false, List.length_map, Bool.false_eq_true]
      rw [filter_not_help st.commands hnames, hlenm, hlenc]
  · unfold parallelPrintLatestOfAllCommands rootCommands
    by_cases hemp : st.commands.isEmpty = true
    · have : st.commands = [] := List.isEmpty_iff.mp hemp
      simp [hemp, hlenm, ← hlenc, this]
    · simp only [hemp, if_false, Bool.false_eq_true]
      rw [hlenm, ← hlenc]
      simp

end Ltst
